import Mathlib

/-!
Verification of the FT6336 capacitive touch-controller driver.

The development shallowly embeds the driver's touch-report decoder
(`PointsIter::next` in src/touch.rs) and the pure value-level parts of the
register layer (scan-rate clamping, power-mode decoding, app-library version
byte swap in src/lib.rs).  Byte buffers are modelled as `List Nat` whose
entries are machine bytes (`< 256` where it matters); Rust slice indexing,
which panics when out of range, is modelled by an `Option`-valued lookup where
`none` stands for the panic.
-/

set_option autoImplicit false

namespace Ft6336

/-- Byte lookup `l[i]`, mirroring Rust slice indexing: an out-of-range index is
a bounds-check panic, modelled as `none`. -/
def byteAt : List Nat → Nat → Option Nat
  | [], _ => none
  | b :: _, 0 => some b
  | _ :: l, n + 1 => byteAt l n

/-- In-place byte update `l[i] = v`, mirroring Rust slice assignment (on an
out-of-range index the list is returned unchanged; the decoder only ever
assigns index 0, which is always in range for its 11-byte buffer). -/
def setByte : List Nat → Nat → Nat → List Nat
  | [], _, _ => []
  | _ :: l, 0, v => v :: l
  | b :: l, n + 1, v => b :: setByte l n v

/-- `PointAction` from src/touch.rs: the 2-bit action code of a touch point. -/
inductive PointAction where
  | PressDown
  | LiftUp
  | Contact
  | NoAction
  deriving DecidableEq, Repr

/-- `PointAction::from_primitive` as derived by `num_enum`: discriminants
0, 1, 2 map to their variants and every other value falls back to the
`#[num_enum(default)]` variant `NoAction`. -/
def pointActionFromPrimitive : Nat → PointAction
  | 0 => PointAction.PressDown
  | 1 => PointAction.LiftUp
  | 2 => PointAction.Contact
  | _ => PointAction.NoAction

/-- `Point` from src/touch.rs.  `index` is a `u8`, `x` and `y` are `u16` in the
source; they are modelled as `Nat` and their ranges proved instead. -/
structure Point where
  index : Nat
  action : PointAction
  x : Nat
  y : Nat
  deriving DecidableEq, Repr

/-- The struct literal built in `PointsIter::next` from the four record bytes
actually read (`data[base]`, `data[base+1]`, `data[base+2]`, `data[base+3]`):
`>> 4` is `/ 16`, `>> 6` is `/ 64`, `& 0xF` is `% 16`, `<< 8` is `* 256`. -/
def decodePoint (b0 b1 b2 b3 : Nat) : Point :=
  { index := b2 / 16
    action := pointActionFromPrimitive (b0 / 64)
    x := b0 % 16 * 256 + b1
    y := b2 % 16 * 256 + b3 }

/-- One call of `PointsIter::next` on the iterator's buffer.  Returns `none`
when an index is out of range (a Rust panic), otherwise
`some (yielded item, updated buffer)`.  Mirrors the source: if `data[0] > 0`
it first decrements `data[0]`, computes `index_base = 1 + data[0] * 6`, and
decodes the four bytes at `index_base .. index_base + 3`. -/
def pointsNext (data : List Nat) : Option (Option Point × List Nat) :=
  match byteAt data 0 with
  | none => none
  | some c =>
    if 0 < c then
      match byteAt (setByte data 0 (c - 1)) (1 + (c - 1) * 6),
          byteAt (setByte data 0 (c - 1)) (1 + (c - 1) * 6 + 1),
          byteAt (setByte data 0 (c - 1)) (1 + (c - 1) * 6 + 2),
          byteAt (setByte data 0 (c - 1)) (1 + (c - 1) * 6 + 3) with
      | some b0, some b1, some b2, some b3 =>
        some (some (decodePoint b0 b1 b2 b3), setByte data 0 (c - 1))
      | _, _, _, _ => none
    else
      some (none, data)

/-- Iterating `PointsIter::next` until it yields `None`, with explicit fuel.
`none` means the fuel ran out or a step panicked. -/
def iterFuel : Nat → List Nat → Option (List Point)
  | 0, _ => none
  | n + 1, data =>
    match pointsNext data with
    | none => none
    | some (none, _) => some []
    | some (some p, d) => Option.map (fun l => p :: l) (iterFuel n d)

/-- The whole sequence produced by the iterator: each successful yield
decrements the count byte by exactly one, so `count + 1` steps of fuel always
reach the `None` answer; hence `iterAll data = none` exactly when some step
panicked (or the buffer is empty). -/
def iterAll (data : List Nat) : Option (List Point) :=
  match byteAt data 0 with
  | none => none
  | some c => iterFuel (c + 1) data

/-- `Ft6336::set_scan_rate` (src/lib.rs): the `(register, value)` pair passed
to `write_u8`.  Register 0x88, input clamped to `[0x04, 0x14]`. -/
def set_scan_rate (value : Nat) : Nat × Nat :=
  if value < 0x04 then (0x88, 0x04)
  else if value > 0x14 then (0x88, 0x14)
  else (0x88, value)

/-- `Ft6336::set_monitor_scan_rate` (src/lib.rs): the `(register, value)` pair
passed to `write_u8`.  Register 0x89, input clamped to `[0x04, 0x14]`. -/
def set_monitor_scan_rate (value : Nat) : Nat × Nat :=
  if value < 0x04 then (0x89, 0x04)
  else if value > 0x14 then (0x89, 0x14)
  else (0x89, value)

/-- `PowerMode` from src/lib.rs. -/
inductive PowerMode where
  | Active
  | Monitor
  | Standby
  | Hibernate
  deriving DecidableEq, Repr

/-- `PowerMode::from_primitive` as derived by `num_enum`: discriminants
0, 1, 2, 3 map to their variants and every other value falls back to the
`#[num_enum(default)]` variant `Active`. -/
def powerModeFromPrimitive : Nat → PowerMode
  | 0 => PowerMode.Active
  | 1 => PowerMode.Monitor
  | 2 => PowerMode.Standby
  | 3 => PowerMode.Hibernate
  | _ => PowerMode.Active

/-- `Ft6336::applib_version` (src/lib.rs) applied to the 2-byte buffer the bus
read filled: `low = buf[1]`, `high = buf[0]`, result `(low, high)`. -/
def applib_version (buf : List Nat) : Option (Nat × Nat) :=
  match byteAt buf 1, byteAt buf 0 with
  | some low, some high => some (low, high)
  | _, _ => none

/-- Modelled from the spec (section 3 bit layout), for the round-trip claim:
the repository has no encoder, so the 6-byte record is built as the spec
describes it: byte 0 is `action << 6` or-ed with the low nibble of `x >> 8`,
byte 1 is the low byte of `x`, byte 2 is `index << 4` or-ed with the low
nibble of `y >> 8`, byte 3 is the low byte of `y`, bytes 4 and 5 unused. -/
def specEncodeRecord (action x y index : Nat) : List Nat :=
  [action * 64 + x / 256 % 16, x % 256, index * 16 + y / 256 % 16, y % 256,
   0, 0]

theorem byteAt_setByte_succ (l : List Nat) (v i : Nat) :
    byteAt (setByte l 0 v) (i + 1) = byteAt l (i + 1) := by
  cases l <;> rfl

theorem byteAt_setByte_zero (l : List Nat) (c v : Nat)
    (h : byteAt l 0 = some c) : byteAt (setByte l 0 v) 0 = some v := by
  cases l with
  | nil => simp [byteAt] at h
  | cons b t => rfl

theorem byteAt_mem (l : List Nat) : ∀ i b, byteAt l i = some b → b ∈ l := by
  induction l with
  | nil => intro i b h; simp [byteAt] at h
  | cons a t ih =>
    intro i b h
    cases i with
    | zero =>
      injection h with h2
      subst h2
      exact List.mem_cons_self a t
    | succ n => exact List.mem_cons_of_mem a (ih n b h)

theorem mem_setByte (v : Nat) :
    ∀ (l : List Nat) (i b : Nat), b ∈ setByte l i v → b ∈ l ∨ b = v := by
  intro l
  induction l with
  | nil => intro i b h; simp [setByte] at h
  | cons a t ih =>
    intro i b h
    cases i with
    | zero =>
      rcases List.mem_cons.mp h with h1 | h1
      · right; exact h1
      · left; exact List.mem_cons_of_mem a h1
    | succ n =>
      rcases List.mem_cons.mp h with h1 | h1
      · left; simp [h1]
      · rcases ih n b h1 with h2 | h2
        · left; exact List.mem_cons_of_mem a h2
        · right; exact h2

/-- C4: for every 11-byte raw block whose count byte is 0, the iterator yields
the empty sequence, and the first call to `next` yields no `Point`. -/
theorem count_zero_yields_empty
    (b1 b2 b3 b4 b5 b6 b7 b8 b9 b10 : Nat) :
    iterAll [0, b1, b2, b3, b4, b5, b6, b7, b8, b9, b10] = some [] ∧
    pointsNext [0, b1, b2, b3, b4, b5, b6, b7, b8, b9, b10] =
      some (none, [0, b1, b2, b3, b4, b5, b6, b7, b8, b9, b10]) :=
  ⟨rfl, rfl⟩

/-- C2: for every 11-byte raw block whose count byte is 2, the iterator yields
exactly two points, the one decoded from the record at base offset 7 first and
the one decoded from the record at base offset 1 second. -/
theorem count_two_yields_second_record_first
    (b1 b2 b3 b4 b5 b6 b7 b8 b9 b10 : Nat) :
    iterAll [2, b1, b2, b3, b4, b5, b6, b7, b8, b9, b10] =
      some [decodePoint b7 b8 b9 b10, decodePoint b1 b2 b3 b4] :=
  rfl

/-- C5: any record whose 2-bit action field (bits 7:6 of its first byte)
equals 3 — the only 2-bit value outside {0,1,2} — decodes to `NoAction`, and
the decoder is total (never fails) on unknown action codes: every code outside
{0,1,2} maps to `NoAction`. -/
theorem action_code_three_decodes_noaction
    (b0 b1 b2 b3 : Nat) (h : b0 / 64 = 3) :
    (decodePoint b0 b1 b2 b3).action = PointAction.NoAction ∧
    (∀ v : Nat, v ≠ 0 → v ≠ 1 → v ≠ 2 →
      pointActionFromPrimitive v = PointAction.NoAction) := by
  constructor
  · simp only [decodePoint, h]
    rfl
  · intro v h0 h1 h2
    match v, h0, h1, h2 with
    | n + 3, _, _, _ => rfl

/-- Witness for C5 at the concrete record `[0xC0, 0, 0, 0]`. -/
theorem action_code_three_decodes_noaction_witness :
    (decodePoint 0xC0 0 0 0).action = PointAction.NoAction :=
  (action_code_three_decodes_noaction 0xC0 0 0 0 (by decide)).1

/-- C7: both scan-rate setters write a clamped value: input below 4 is raised
to 4, input above 20 is lowered to 20, anything in between is written
unchanged; no input is ever rejected. -/
theorem scan_rate_setters_clamp (v : Nat) :
    (v < 4 → (set_scan_rate v).2 = 4 ∧ (set_monitor_scan_rate v).2 = 4) ∧
    (v > 20 → (set_scan_rate v).2 = 20 ∧ (set_monitor_scan_rate v).2 = 20) ∧
    (4 ≤ v → v ≤ 20 →
      (set_scan_rate v).2 = v ∧ (set_monitor_scan_rate v).2 = v) := by
  refine ⟨fun h => ?_, fun h => ?_, fun h4 h20 => ?_⟩
  · simp [set_scan_rate, set_monitor_scan_rate, h]
  · have h1 : ¬ v < 4 := by omega
    simp [set_scan_rate, set_monitor_scan_rate, h, h1]
  · have h1 : ¬ v < 4 := by omega
    have h2 : ¬ v > 20 := by omega
    simp [set_scan_rate, set_monitor_scan_rate, h1, h2]

/-- Witness for C7 at inputs 0, 255 and 10. -/
theorem scan_rate_setters_clamp_witness :
    ((set_scan_rate 0).2 = 4 ∧ (set_monitor_scan_rate 0).2 = 4) ∧
    ((set_scan_rate 255).2 = 20 ∧ (set_monitor_scan_rate 255).2 = 20) ∧
    ((set_scan_rate 10).2 = 10 ∧ (set_monitor_scan_rate 10).2 = 10) :=
  ⟨(scan_rate_setters_clamp 0).1 (by decide),
   (scan_rate_setters_clamp 255).2.1 (by decide),
   (scan_rate_setters_clamp 10).2.2 (by decide) (by decide)⟩

/-- C8: the power-mode register byte decodes 0 to `Active`, 1 to `Monitor`,
2 to `Standby`, 3 to `Hibernate`, and every byte above 3 falls back to
`Active`. -/
theorem power_mode_from_byte (v : Nat) :
    powerModeFromPrimitive 0 = PowerMode.Active ∧
    powerModeFromPrimitive 1 = PowerMode.Monitor ∧
    powerModeFromPrimitive 2 = PowerMode.Standby ∧
    powerModeFromPrimitive 3 = PowerMode.Hibernate ∧
    (3 < v → powerModeFromPrimitive v = PowerMode.Active) := by
  refine ⟨rfl, rfl, rfl, rfl, fun h => ?_⟩
  match v, h with
  | n + 4, _ => rfl

/-- Witness for C8 at the unrecognized byte 5. -/
theorem power_mode_from_byte_witness :
    powerModeFromPrimitive 5 = PowerMode.Active :=
  (power_mode_from_byte 5).2.2.2.2 (by decide)

/-- C9: for every pair of raw bytes `[b0, b1]` filled by the 2-byte read,
`applib_version` returns them order-swapped, `(low = b1, high = b0)`. -/
theorem applib_version_swaps_bytes (b0 b1 : Nat) :
    applib_version [b0, b1] = some (b1, b0) :=
  rfl

/-- C10: every call of `next` that returns leaves bytes 1 through 10 of the
buffer unchanged; only byte 0 changes, decremented by exactly 1 when it is
positive and left unchanged (the whole buffer unchanged) when it is 0. -/
theorem next_frame_condition (data : List Nat) (c : Nat) (op : Option Point)
    (d : List Nat) (hc : byteAt data 0 = some c)
    (hn : pointsNext data = some (op, d)) :
    (∀ i, 1 ≤ i → byteAt d i = byteAt data i) ∧
    (0 < c → byteAt d 0 = some (c - 1)) ∧
    (c = 0 → d = data) := by
  unfold pointsNext at hn
  rw [hc] at hn
  simp only [] at hn
  by_cases hpos : 0 < c
  · rw [if_pos hpos] at hn
    split at hn
    · injection hn with hn1
      injection hn1 with hop hd
      subst hd
      refine ⟨fun i hi => ?_, fun _ => byteAt_setByte_zero data c (c - 1) hc,
        fun h0 => absurd h0 (by omega)⟩
      cases i with
      | zero => omega
      | succ n => exact byteAt_setByte_succ data (c - 1) n
    · simp at hn
  · rw [if_neg hpos] at hn
    injection hn with hn1
    injection hn1 with hop hd
    subst hd
    exact ⟨fun i hi => rfl, fun h0 => absurd h0 hpos, fun _ => rfl⟩

/-- Witness for C10 on the buffer `[1, 0, ..., 0]`: after one call byte 5 is
unchanged and byte 0 went from 1 to 0. -/
theorem next_frame_condition_witness :
    byteAt [0, 0, 0, 0, 0, 0, 0, 0, 0, 0, 0] 5 =
      byteAt [1, 0, 0, 0, 0, 0, 0, 0, 0, 0, 0] 5 ∧
    byteAt [0, 0, 0, 0, 0, 0, 0, 0, 0, 0, 0] 0 = some 0 :=
  ⟨(next_frame_condition [1, 0, 0, 0, 0, 0, 0, 0, 0, 0, 0] 1
      (some (decodePoint 0 0 0 0)) [0, 0, 0, 0, 0, 0, 0, 0, 0, 0, 0]
      rfl rfl).1 5 (by decide),
   (next_frame_condition [1, 0, 0, 0, 0, 0, 0, 0, 0, 0, 0] 1
      (some (decodePoint 0 0 0 0)) [0, 0, 0, 0, 0, 0, 0, 0, 0, 0, 0]
      rfl rfl).2.1 (by decide)⟩

theorem exists_eleven (l : List Nat) (h : l.length = 11) :
    ∃ b0 b1 b2 b3 b4 b5 b6 b7 b8 b9 b10,
      l = [b0, b1, b2, b3, b4, b5, b6, b7, b8, b9, b10] := by
  rcases l with _ | ⟨b0, l⟩
  · simp at h
  rcases l with _ | ⟨b1, l⟩
  · simp at h
  rcases l with _ | ⟨b2, l⟩
  · simp at h
  rcases l with _ | ⟨b3, l⟩
  · simp at h
  rcases l with _ | ⟨b4, l⟩
  · simp at h
  rcases l with _ | ⟨b5, l⟩
  · simp at h
  rcases l with _ | ⟨b6, l⟩
  · simp at h
  rcases l with _ | ⟨b7, l⟩
  · simp at h
  rcases l with _ | ⟨b8, l⟩
  · simp at h
  rcases l with _ | ⟨b9, l⟩
  · simp at h
  rcases l with _ | ⟨b10, l⟩
  · simp at h
  have hnil : l = [] := by simpa using h
  subst hnil
  exact ⟨b0, b1, b2, b3, b4, b5, b6, b7, b8, b9, b10, rfl⟩

/-- C1 counterexample: the count byte is not clamped.  On the 11-byte block
whose count byte is 3 the very first call of `next` computes
`index_base = 1 + 2 * 6 = 13` and indexes past the 11-byte buffer (a Rust
bounds-check panic, modelled as `none`), contradicting the claim that every
count value 0-255 decodes without out-of-range access. -/
theorem count_three_reads_out_of_bounds :
    iterAll [3, 0, 0, 0, 0, 0, 0, 0, 0, 0, 0] = none :=
  rfl

/-- C1 amended: for every 11-byte raw block whose count byte is at most 2,
iterating to exhaustion stays within the buffer (no step panics) and yields
exactly the declared number of points. -/
theorem count_at_most_two_stays_in_bounds (data : List Nat) (c : Nat)
    (hlen : data.length = 11) (hc : byteAt data 0 = some c) (h2 : c ≤ 2) :
    ∃ ps, iterAll data = some ps ∧ ps.length = c := by
  obtain ⟨b0, b1, b2, b3, b4, b5, b6, b7, b8, b9, b10, rfl⟩ :=
    exists_eleven data hlen
  have hc0 : b0 = c := by injection hc
  subst hc0
  interval_cases b0
  · exact ⟨[], rfl, rfl⟩
  · exact ⟨[decodePoint b1 b2 b3 b4], rfl, rfl⟩
  · exact ⟨[decodePoint b7 b8 b9 b10, decodePoint b1 b2 b3 b4], rfl, rfl⟩

/-- Witness for the amended C1 on the block `[2, 0, ..., 0]`. -/
theorem count_at_most_two_stays_in_bounds_witness :
    ∃ ps, iterAll [2, 0, 0, 0, 0, 0, 0, 0, 0, 0, 0] = some ps ∧
      ps.length = 2 :=
  count_at_most_two_stays_in_bounds [2, 0, 0, 0, 0, 0, 0, 0, 0, 0, 0] 2
    rfl rfl (by decide)

/-- C3: bit-packing round-trip: building a 6-byte record from
`(action, x, y, index)` with action in {0,1,2}, x and y 12-bit, index 4-bit,
by the spec's section 3 layout, and decoding it (inside a count-1 block)
reproduces the original tuple. -/
theorem record_roundtrip (a x y i : Nat) (ha : a < 3) (hx : x ≤ 4095)
    (hy : y ≤ 4095) (hi : i ≤ 15) :
    iterAll (1 :: specEncodeRecord a x y i ++ [0, 0, 0, 0]) =
      some [{ index := i, action := pointActionFromPrimitive a,
              x := x, y := y }] := by
  have h1 : iterAll (1 :: specEncodeRecord a x y i ++ [0, 0, 0, 0]) =
      some [decodePoint (a * 64 + x / 256 % 16) (x % 256)
        (i * 16 + y / 256 % 16) (y % 256)] := rfl
  rw [h1]
  have hb0 : (a * 64 + x / 256 % 16) / 64 = a := by omega
  have hx0 : (a * 64 + x / 256 % 16) % 16 * 256 + x % 256 = x := by omega
  have hi0 : (i * 16 + y / 256 % 16) / 16 = i := by omega
  have hy0 : (i * 16 + y / 256 % 16) % 16 * 256 + y % 256 = y := by omega
  simp only [decodePoint]
  rw [hb0, hx0, hi0, hy0]

/-- Witness for C3 at the tuple `(action 2, x 4095, y 0, index 15)`. -/
theorem record_roundtrip_witness :
    iterAll (1 :: specEncodeRecord 2 4095 0 15 ++ [0, 0, 0, 0]) =
      some [{ index := 15, action := pointActionFromPrimitive 2,
              x := 4095, y := 0 }] :=
  record_roundtrip 2 4095 0 15 (by decide) (by decide) (by decide) (by decide)

theorem pointsNext_bounds (data : List Nat) (p : Point) (d : List Nat)
    (hb : ∀ b ∈ data, b < 256)
    (hn : pointsNext data = some (some p, d)) :
    (p.index ≤ 15 ∧ p.x ≤ 4095 ∧ p.y ≤ 4095) ∧ (∀ b ∈ d, b < 256) := by
  unfold pointsNext at hn
  cases hc : byteAt data 0 with
  | none => rw [hc] at hn; simp at hn
  | some c =>
    rw [hc] at hn
    simp only [] at hn
    have hcmem : c < 256 := hb c (byteAt_mem data 0 c hc)
    by_cases hpos : 0 < c
    · rw [if_pos hpos] at hn
      have hdbytes : ∀ b ∈ setByte data 0 (c - 1), b < 256 := by
        intro b hbmem
        rcases mem_setByte (c - 1) data 0 b hbmem with h1 | h1
        · exact hb b h1
        · omega
      split at hn
      · next b0 b1 b2 b3 h0 hh1 hh2 hh3 =>
        injection hn with hn1
        injection hn1 with hop hd
        injection hop with hp
        subst hp
        subst hd
        have hb0 : b0 < 256 :=
          hdbytes b0 (byteAt_mem _ _ b0 h0)
        have hb1 : b1 < 256 :=
          hdbytes b1 (byteAt_mem _ _ b1 hh1)
        have hb2 : b2 < 256 :=
          hdbytes b2 (byteAt_mem _ _ b2 hh2)
        have hb3 : b3 < 256 :=
          hdbytes b3 (byteAt_mem _ _ b3 hh3)
        refine ⟨⟨?_, ?_, ?_⟩, hdbytes⟩ <;> simp [decodePoint] <;> omega
      · simp at hn
    · rw [if_neg hpos] at hn
      injection hn with hn1
      injection hn1 with hop hd
      simp at hop

theorem iterFuel_bounds : ∀ (fuel : Nat) (data : List Nat) (ps : List Point),
    (∀ b ∈ data, b < 256) → iterFuel fuel data = some ps →
    ∀ p ∈ ps, p.index ≤ 15 ∧ p.x ≤ 4095 ∧ p.y ≤ 4095 := by
  intro fuel
  induction fuel with
  | zero => intro data ps hb h; simp [iterFuel] at h
  | succ n ih =>
    intro data ps hb h
    unfold iterFuel at h
    cases hn : pointsNext data with
    | none => rw [hn] at h; simp at h
    | some pr =>
      rcases pr with ⟨op, d⟩
      cases op with
      | none =>
        rw [hn] at h
        simp at h
        subst h
        intro p hp
        simp at hp
      | some p0 =>
        rw [hn] at h
        simp only [] at h
        cases ho : iterFuel n d with
        | none => rw [ho] at h; simp at h
        | some tl =>
          rw [ho] at h
          simp at h
          subst h
          obtain ⟨hp0, hd⟩ := pointsNext_bounds data p0 d hb hn
          intro p hp
          rcases List.mem_cons.mp hp with h1 | h1
          · subst h1; exact hp0
          · exact ih d tl hd ho p h1

/-- C6: every Point yielded by the iterator, for every buffer of machine
bytes, has index in [0, 15], x in [0, 4095] and y in [0, 4095]. -/
theorem yielded_points_in_range (data : List Nat) (ps : List Point)
    (hb : ∀ b ∈ data, b < 256) (h : iterAll data = some ps) :
    ∀ p ∈ ps, p.index ≤ 15 ∧ p.x ≤ 4095 ∧ p.y ≤ 4095 := by
  unfold iterAll at h
  cases hc : byteAt data 0 with
  | none => rw [hc] at h; simp at h
  | some c =>
    rw [hc] at h
    exact iterFuel_bounds (c + 1) data ps hb h

/-- Witness for C6 on the block `[1, 255, 255, 255, 255, 0, ..., 0]`, whose
single yielded point is `decodePoint 255 255 255 255`. -/
theorem yielded_points_in_range_witness :
    (decodePoint 255 255 255 255).index ≤ 15 ∧
    (decodePoint 255 255 255 255).x ≤ 4095 ∧
    (decodePoint 255 255 255 255).y ≤ 4095 :=
  yielded_points_in_range [1, 255, 255, 255, 255, 0, 0, 0, 0, 0, 0]
    [decodePoint 255 255 255 255] (by decide) rfl
    (decodePoint 255 255 255 255) (by simp)

end Ft6336
